import Mathlib

/-!
Shallow embedding of the execution core of `effect-pipeline`
(`src/core/node.ts`, `src/core/pipe.ts`, `src/core/event.ts`,
`src/runtime/engine.ts` (PipelineExecutor), `src/orchestrator/orchestrator.ts`,
`src/runtime/plugins/pluginManager.ts`, `src/pipes/builder.ts`).

Conventions of the embedding:
* JavaScript runtime values flowing between nodes are modelled by `Val`
  (with `Val.undef` for `undefined`, the input of the first node).
* A node's `run` handler is an `Effect` that either succeeds with a value or
  fails with an error; errors are modelled by their string form, since the
  engine interpolates them into `Node <name> failed: <error>` messages.
* `Queue.offer` calls are recorded in order in an event list; the executor is
  single-fibered, so its event emissions form a deterministic sequence.
* `node.run` invocations are recorded as `(name, input)` pairs so that claims
  about which nodes are invoked, and with which input, are statable.
-/

namespace EffectPipeline

/-- `NodeKind` enum from `src/core/node.ts`:
ingress / transform / egress / duplex. -/
inductive NodeKind where
  | ingress
  | transform
  | egress
  | duplex
deriving DecidableEq, Repr

/-- The string value of each `NodeKind` enum member
(`Ingress = "ingress"` etc. in `src/core/node.ts`), as interpolated into
builder error messages. -/
def NodeKind.str : NodeKind → String
  | .ingress => "ingress"
  | .transform => "transform"
  | .egress => "egress"
  | .duplex => "duplex"

/-- JavaScript values exchanged between nodes at runtime.
`undef` models `undefined`, the sentinel fed to the first node. -/
inductive Val where
  | undef
  | str (s : String)
  | num (n : Int)
deriving DecidableEq, Repr

/-- A `Node` from `src/core/node.ts`: a `kind`, a `name`, and a `run`
handler that consumes one input and either produces one output or fails
(the optional schemas play no role in the execution core). -/
structure Node where
  kind : NodeKind
  name : String
  run : Val → Except String Val

/-- A `Pipe` from `src/core/pipe.ts`: a `name` plus an ordered list of
nodes. -/
structure Pipe where
  name : String
  nodes : List Node

/-- A `Deployment` from `src/core/deployment.ts`: a `name` plus a `Pipe`. -/
structure Deployment where
  name : String
  pipe : Pipe

/-- A `Cluster` from `src/core/cluster.ts`: a `name` plus an ordered list of
deployments. -/
structure Cluster where
  name : String
  deployments : List Deployment

/-- The `RuntimeEvent` union from `src/core/event.ts`, one constructor per
`_tag` variant; `*Errored` variants carry the error (in string form). -/
inductive RuntimeEvent where
  | nodeStarted (nodeName : String)
  | nodeCompleted (nodeName : String)
  | nodeErrored (nodeName : String) (error : String)
  | pipelineStarted (pipelineName : String)
  | pipelineCompleted (pipelineName : String)
  | pipelineErrored (pipelineName : String) (error : String)
  | deploymentStarted (deploymentName : String)
  | deploymentCompleted (deploymentName : String)
  | deploymentErrored (deploymentName : String) (error : String)
  | clusterStarted (clusterName : String)
  | clusterCompleted (clusterName : String)
  | clusterErrored (clusterName : String) (error : String)
deriving DecidableEq, Repr

/-- Result of running the executor's node loop (`PipelineExecutor.run` in
`src/runtime/engine.ts`, body of the `for (const node of self.pipe.nodes)`
loop): the events offered to the queue, the `node.run` invocations made
(name and input, in order), and either the final `currentInput` or the
wrapped failure. -/
structure LoopResult where
  events : List RuntimeEvent
  calls : List (String × Val)
  result : Except String Val

/-- The node loop of `PipelineExecutor.run`: for each node, offer
`NodeStarted`, invoke `node.run(currentInput)`; on failure offer
`NodeErrored` and fail with `Node <name> failed: <error>` (aborting the
loop); on success offer `NodeCompleted` and thread the output into
`currentInput` for the next node. -/
def runNodes : List Node → Val → LoopResult
  | [], cur => ⟨[], [], .ok cur⟩
  | node :: rest, cur =>
    match node.run cur with
    | .error e =>
        ⟨[.nodeStarted node.name, .nodeErrored node.name e],
         [(node.name, cur)],
         .error ("Node " ++ node.name ++ " failed: " ++ e)⟩
    | .ok out =>
        let r := runNodes rest out
        ⟨.nodeStarted node.name :: .nodeCompleted node.name :: r.events,
         (node.name, cur) :: r.calls,
         r.result⟩

/-- `PipelineExecutor.run` (`src/runtime/engine.ts`): offer
`PipelineStarted`, run the node loop starting from `currentInput =
undefined`, and offer `PipelineCompleted` only if the loop finished without
failure; the overall outcome is `void` on success or the wrapped node
error. -/
def PipelineExecutor.run (pipe : Pipe) : LoopResult :=
  let r := runNodes pipe.nodes Val.undef
  match r.result with
  | .ok _ =>
      ⟨.pipelineStarted pipe.name :: r.events ++ [.pipelineCompleted pipe.name],
       r.calls, .ok Val.undef⟩
  | .error e =>
      ⟨.pipelineStarted pipe.name :: r.events, r.calls, .error e⟩

/-- The event-pair block `[NodeStarted(n), NodeCompleted(n)]` per node, used
to state the all-success trace shape. -/
def successPair (n : Node) : List RuntimeEvent :=
  [.nodeStarted n.name, .nodeCompleted n.name]

theorem runNodes_all_ok (nodes : List Node) (cur : Val)
    (h : ∀ n ∈ nodes, ∀ v, ∃ w, n.run v = .ok w) :
    (runNodes nodes cur).events = nodes.flatMap successPair ∧
    (runNodes nodes cur).result.isOk = true := by
  induction nodes generalizing cur with
  | nil => simp [runNodes, Except.isOk, Except.toBool]
  | cons node rest ih =>
      obtain ⟨w, hw⟩ := h node (List.mem_cons_self node rest) cur
      have ihr := ih w (fun n hn v => h n (List.mem_cons_of_mem _ hn) v)
      simp [runNodes, hw, successPair, ihr.1, ihr.2]

/-- C1: all-success executor trace. -/
theorem executor_all_success_trace (pipe : Pipe)
    (h : ∀ n ∈ pipe.nodes, ∀ v, ∃ w, n.run v = .ok w) :
    (PipelineExecutor.run pipe).events =
      .pipelineStarted pipe.name ::
        pipe.nodes.flatMap successPair ++ [.pipelineCompleted pipe.name] ∧
    (PipelineExecutor.run pipe).events.length = 2 * pipe.nodes.length + 2 ∧
    (PipelineExecutor.run pipe).result.isOk = true := by
  obtain ⟨hev, hok⟩ := runNodes_all_ok pipe.nodes Val.undef h
  obtain ⟨v, hres⟩ : ∃ v, (runNodes pipe.nodes Val.undef).result = .ok v := by
    cases hr : (runNodes pipe.nodes Val.undef).result with
    | ok v => exact ⟨v, rfl⟩
    | error e => rw [hr] at hok; simp [Except.isOk, Except.toBool] at hok
  have hevs : (PipelineExecutor.run pipe).events =
      .pipelineStarted pipe.name ::
        pipe.nodes.flatMap successPair ++ [.pipelineCompleted pipe.name] := by
    simp [PipelineExecutor.run, hres, hev]
  refine ⟨hevs, ?_, by simp [PipelineExecutor.run, hres, Except.isOk, Except.toBool]⟩
  rw [hevs]
  have h2 : (List.map (List.length ∘ successPair) pipe.nodes).sum =
      2 * pipe.nodes.length := by
    have hc : (List.length ∘ successPair) = fun (_ : Node) => 2 := by
      funext n; simp [successPair]
    rw [hc, List.map_const', List.sum_replicate, smul_eq_mul, Nat.mul_comm]
  simp [List.length_flatMap, h2]

/-- The ingress node of the spec's concrete scenarios: `"in"` produces the
value `"World"` (the `{name: "World"}` record collapsed to its payload
string in the `Val` model). -/
def inNode : Node := ⟨.ingress, "in", fun _ => .ok (.str "World")⟩

/-- Scenario transform node `"t"`: greets its input. -/
def tNode : Node :=
  ⟨.transform, "t", fun v =>
    match v with
    | .str s => .ok (.str ("Hello " ++ s ++ "!"))
    | _ => .ok .undef⟩

/-- Scenario egress node `"out"`: discards its input. -/
def outNode : Node := ⟨.egress, "out", fun _ => .ok .undef⟩

/-- Scenario pipeline `"hello"` = [in, t, out], all succeeding. -/
def helloPipe : Pipe := ⟨"hello", [inNode, tNode, outNode]⟩

theorem executor_all_success_trace_witness :
    (PipelineExecutor.run helloPipe).events =
      .pipelineStarted helloPipe.name ::
        helloPipe.nodes.flatMap successPair ++
          [.pipelineCompleted helloPipe.name] ∧
    (PipelineExecutor.run helloPipe).events.length =
      2 * helloPipe.nodes.length + 2 ∧
    (PipelineExecutor.run helloPipe).result.isOk = true :=
  executor_all_success_trace helloPipe (by
    intro n hn v
    simp only [helloPipe, List.mem_cons, List.not_mem_nil, or_false] at hn
    rcases hn with h | h | h <;> subst h <;> cases v <;> exact ⟨_, rfl⟩)

theorem runNodes_first_fail (pre : List Node) (fk : Node) (post : List Node)
    (cur : Val)
    (hpre : ∀ n ∈ pre, ∀ v, ∃ w, n.run v = .ok w)
    (hfk : ∀ v, ∃ e, fk.run v = .error e) :
    ∃ vin e, fk.run vin = .error e ∧
      (runNodes (pre ++ fk :: post) cur).events =
        pre.flatMap successPair ++
          [.nodeStarted fk.name, .nodeErrored fk.name e] ∧
      (runNodes (pre ++ fk :: post) cur).result =
        .error ("Node " ++ fk.name ++ " failed: " ++ e) ∧
      (runNodes (pre ++ fk :: post) cur).calls.map Prod.fst =
        pre.map Node.name ++ [fk.name] := by
  induction pre generalizing cur with
  | nil =>
      obtain ⟨e, he⟩ := hfk cur
      exact ⟨cur, e, he, by simp [runNodes, he], by simp [runNodes, he],
        by simp [runNodes, he]⟩
  | cons n pre ih =>
      obtain ⟨w, hw⟩ := hpre n (List.mem_cons_self n pre) cur
      obtain ⟨vin, e, hfe, hev, hres, hcalls⟩ :=
        ih w (fun m hm v => hpre m (List.mem_cons_of_mem _ hm) v)
      refine ⟨vin, e, hfe, ?_, ?_, ?_⟩
      · simp [runNodes, hw, hev, successPair]
      · simp [runNodes, hw, hres]
      · simp [runNodes, hw, hcalls]

/-- C3: first-failure short circuit. -/
theorem executor_short_circuit (pipe : Pipe) (pre : List Node) (fk : Node)
    (post : List Node)
    (hsplit : pipe.nodes = pre ++ fk :: post)
    (hpre : ∀ n ∈ pre, ∀ v, ∃ w, n.run v = .ok w)
    (hfk : ∀ v, ∃ e, fk.run v = .error e) :
    ∃ e,
      (PipelineExecutor.run pipe).events =
        .pipelineStarted pipe.name :: pre.flatMap successPair ++
          [.nodeStarted fk.name, .nodeErrored fk.name e] ∧
      (PipelineExecutor.run pipe).result =
        .error ("Node " ++ fk.name ++ " failed: " ++ e) ∧
      (PipelineExecutor.run pipe).calls.map Prod.fst =
        pre.map Node.name ++ [fk.name] := by
  obtain ⟨vin, e, hfe, hev, hres, hcalls⟩ :=
    runNodes_first_fail pre fk post Val.undef hpre hfk
  rw [← hsplit] at hev hres hcalls
  exact ⟨e, by simp [PipelineExecutor.run, hres, hev],
    by simp [PipelineExecutor.run, hres],
    by simp [PipelineExecutor.run, hres, hcalls]⟩

/-- Scenario node `"t"` failing with the raw error `"boom"`. -/
def tBoom : Node := ⟨.transform, "t", fun _ => .error "boom"⟩

/-- Scenario pipeline `"hello"` whose `"t"` node throws `"boom"`. -/
def boomPipe : Pipe := ⟨"hello", [inNode, tBoom, outNode]⟩

theorem executor_short_circuit_witness :
    ∃ e,
      (PipelineExecutor.run boomPipe).events =
        .pipelineStarted boomPipe.name :: [inNode].flatMap successPair ++
          [.nodeStarted tBoom.name, .nodeErrored tBoom.name e] ∧
      (PipelineExecutor.run boomPipe).result =
        .error ("Node " ++ tBoom.name ++ " failed: " ++ e) ∧
      (PipelineExecutor.run boomPipe).calls.map Prod.fst =
        [inNode].map Node.name ++ [tBoom.name] :=
  executor_short_circuit boomPipe [inNode] tBoom [outNode] rfl
    (by
      intro n hn v
      simp only [List.mem_cons, List.not_mem_nil, or_false] at hn
      subst hn; exact ⟨_, rfl⟩)
    (fun _ => ⟨"boom", rfl⟩)

theorem executor_error_wrap_counterexample :
    (PipelineExecutor.run boomPipe).result = .error "Node t failed: boom" ∧
    "Node t failed: boom" ≠ "Step t failed: boom" := by
  refine ⟨rfl, ?_⟩
  decide

/-- C4 (amended): the executor wraps a failing node's error as
`Node <name> failed: <error>`. -/
theorem executor_error_wrap (pipe : Pipe) (pre : List Node) (fk : Node)
    (post : List Node) (e : String)
    (hsplit : pipe.nodes = pre ++ fk :: post)
    (hpre : ∀ n ∈ pre, ∀ v, ∃ w, n.run v = .ok w)
    (hfk : ∀ v, fk.run v = .error e) :
    (PipelineExecutor.run pipe).result =
      .error ("Node " ++ fk.name ++ " failed: " ++ e) := by
  obtain ⟨vin, e', hfe, hev, hres, hcalls⟩ :=
    runNodes_first_fail pre fk post Val.undef hpre (fun v => ⟨e, hfk v⟩)
  have he : e' = e := by
    have := hfk vin
    rw [this] at hfe
    exact (Except.error.inj hfe).symm
  rw [← hsplit] at hres
  subst he
  simp [PipelineExecutor.run, hres]

theorem executor_error_wrap_witness :
    (PipelineExecutor.run boomPipe).result = .error "Node t failed: boom" :=
  executor_error_wrap boomPipe [inNode] tBoom [outNode] "boom" rfl
    (by
      intro n hn v
      simp only [List.mem_cons, List.not_mem_nil, or_false] at hn
      subst hn; exact ⟨_, rfl⟩)
    (fun _ => rfl)

/-- C5: data threading — the first node is invoked with the `undefined`
sentinel, and each subsequent node with the previous node's output. -/
theorem executor_data_threading (pipe : Pipe) (S1 S2 : Node)
    (rest : List Node) (v1 : Val)
    (hsplit : pipe.nodes = S1 :: S2 :: rest)
    (hS1 : S1.run Val.undef = .ok v1) :
    (PipelineExecutor.run pipe).calls.take 2 =
      [(S1.name, Val.undef), (S2.name, v1)] ∧
    ∀ (n : Node) (ns : List Node) (v w : Val), n.run v = .ok w →
      (runNodes (n :: ns) v).calls = (n.name, v) :: (runNodes ns w).calls := by
  have hthread : ∀ (n : Node) (ns : List Node) (v w : Val),
      n.run v = .ok w →
      (runNodes (n :: ns) v).calls = (n.name, v) :: (runNodes ns w).calls := by
    intro n ns v w hw
    simp [runNodes, hw]
  refine ⟨?_, hthread⟩
  have hcalls : (PipelineExecutor.run pipe).calls =
      (runNodes pipe.nodes Val.undef).calls := by
    unfold PipelineExecutor.run
    cases h : (runNodes pipe.nodes Val.undef).result <;> simp [h]
  rw [hcalls, hsplit, hthread S1 (S2 :: rest) Val.undef v1 hS1]
  cases h2 : S2.run v1 <;> simp [runNodes, h2]

theorem executor_data_threading_witness :
    (PipelineExecutor.run helloPipe).calls.take 2 =
      [(inNode.name, Val.undef), (tNode.name, Val.str "World")] ∧
    ∀ (n : Node) (ns : List Node) (v w : Val), n.run v = .ok w →
      (runNodes (n :: ns) v).calls = (n.name, v) :: (runNodes ns w).calls :=
  executor_data_threading helloPipe inNode tNode [outNode] (Val.str "World")
    rfl rfl

instance {α β : Type} [DecidableEq α] [DecidableEq β] :
    DecidableEq (Except α β) := fun x y =>
  match x, y with
  | .ok a, .ok b =>
      if h : a = b then .isTrue (by rw [h])
      else .isFalse (fun hc => h (Except.ok.inj hc))
  | .error a, .error b =>
      if h : a = b then .isTrue (by rw [h])
      else .isFalse (fun hc => h (Except.error.inj hc))
  | .ok _, .error _ => .isFalse (fun hc => Except.noConfusion hc)
  | .error _, .ok _ => .isFalse (fun hc => Except.noConfusion hc)

/-!
### Pipeline builder (`src/pipes/builder.ts`)

JavaScript arrays are heap references: the builder's `this.nodes` array is
allocated once per builder and mutated in place by `push`, and
`build()` returns `{name: this.name, nodes: this.nodes}` — the very same
array object, not a copy. The embedding therefore threads an explicit
`Store` of arrays, so that this aliasing is observable.
-/

/-- The heap of node arrays: a reference (`Nat`) names one array. -/
structure Store where
  arrays : Nat → List Node
  next : Nat

/-- The empty heap. -/
def emptyStore : Store := ⟨fun _ => [], 0⟩

/-- In-place `this.nodes.push(node)` on the array named `r`. -/
def Store.push (s : Store) (r : Nat) (n : Node) : Store :=
  ⟨fun i => if i = r then s.arrays r ++ [n] else s.arrays i, s.next⟩

/-- A `PipelineBuilder`: its `name` and the reference to its `nodes`
array. -/
structure PipelineBuilder where
  name : String
  nodesRef : Nat
deriving DecidableEq, Repr

/-- `pipeline(name)`: allocates a builder with a fresh empty `nodes`
array. -/
def pipeline (s : Store) (name : String) : Store × PipelineBuilder :=
  (⟨fun i => if i = s.next then [] else s.arrays i, s.next + 1⟩,
   ⟨name, s.next⟩)

/-- The `Pipe` object returned by `build()`: its `name` and the reference to
the node array it shares with the builder. -/
structure BuiltPipe where
  name : String
  nodesRef : Nat
deriving DecidableEq, Repr

/-- The contents of a built pipe's `nodes` array, read from the heap. -/
def BuiltPipe.view (p : BuiltPipe) (s : Store) : List Node :=
  s.arrays p.nodesRef

/-- `PipelineBuilder.from(node)`: reject unless `node.kind === "ingress"`,
else push and return `this`. -/
def PipelineBuilder.fromNode (b : PipelineBuilder) (s : Store) (n : Node) :
    Except String (Store × PipelineBuilder) :=
  if n.kind ≠ NodeKind.ingress then
    .error ("Expected ingress node, got " ++ n.kind.str)
  else .ok (s.push b.nodesRef n, b)

/-- `PipelineBuilder.through(node)`: reject unless the kind is `transform`
or `duplex`, else push and return `this`. -/
def PipelineBuilder.throughNode (b : PipelineBuilder) (s : Store) (n : Node) :
    Except String (Store × PipelineBuilder) :=
  if n.kind ≠ NodeKind.transform ∧ n.kind ≠ NodeKind.duplex then
    .error ("Expected transform or duplex node, got " ++ n.kind.str)
  else .ok (s.push b.nodesRef n, b)

/-- `PipelineBuilder.to(node)`: reject unless `node.kind === "egress"`,
else push and return `this`. -/
def PipelineBuilder.toNode (b : PipelineBuilder) (s : Store) (n : Node) :
    Except String (Store × PipelineBuilder) :=
  if n.kind ≠ NodeKind.egress then
    .error ("Expected egress node, got " ++ n.kind.str)
  else .ok (s.push b.nodesRef n, b)

/-- `PipelineBuilder.build()`: check non-emptiness, then the first node's
kind, then the last node's kind, and return `{name, nodes: this.nodes}`
(the same array reference, not a copy). -/
def PipelineBuilder.build (b : PipelineBuilder) (s : Store) :
    Except String BuiltPipe :=
  if (s.arrays b.nodesRef).length = 0 then
    .error "Pipeline must have at least one node"
  else if (match (s.arrays b.nodesRef).head? with
           | some n => decide (n.kind ≠ NodeKind.ingress)
           | none => false) then
    .error "Pipeline must start with an ingress node"
  else if (match (s.arrays b.nodesRef).getLast? with
           | some n => decide (n.kind ≠ NodeKind.egress)
           | none => false) then
    .error "Pipeline must end with an egress node"
  else
    .ok ⟨b.name, b.nodesRef⟩

/-- A transform node as used by the spec's scenario 3. -/
def transformStep : Node := ⟨.transform, "transform-step", fun v => .ok v⟩

/-- An egress node as used by the spec's scenario 3. -/
def sinkStep : Node := ⟨.egress, "sink-step", fun _ => .ok .undef⟩

/-- Scenario 3 after `pipeline("p")`. -/
def scenario3Start : Store × PipelineBuilder := pipeline emptyStore "p"

/-- Scenario 3 after `.through(transformStep)`. -/
def scenario3Through : Except String (Store × PipelineBuilder) :=
  scenario3Start.2.throughNode scenario3Start.1 transformStep

/-- Scenario 3 after `.to(sinkStep)`. -/
def scenario3To : Except String (Store × PipelineBuilder) :=
  scenario3Through.bind fun sb => sb.2.toNode sb.1 sinkStep

/-- Scenario 3 after `.build()`. -/
def scenario3Build : Except String BuiltPipe :=
  scenario3To.bind fun sb => sb.2.build sb.1

/-- C7: `pipeline("p").through(transformStep).to(sinkStep).build()` — the
`through` and `to` calls succeed and the final build-time first-node check
raises `Pipeline must start with an ingress node`. -/
theorem builder_scenario3 :
    scenario3Through.isOk = true ∧ scenario3To.isOk = true ∧
    scenario3Build = .error "Pipeline must start with an ingress node" :=
  ⟨rfl, rfl, by decide⟩

/-- Chained `.through(n)` calls for a list of middle nodes. -/
def throughAll : Store → PipelineBuilder → List Node →
    Except String (Store × PipelineBuilder)
  | s, b, [] => .ok (s, b)
  | s, b, n :: rest =>
    match b.throughNode s n with
    | .error e => .error e
    | .ok (s', b') => throughAll s' b' rest

/-- The full fluent chain
`pipeline(name).from(first).through(m1)…through(mk).to(last).build()`,
also returning the heap at build time. -/
def buildVia (s : Store) (name : String) (first : Node) (mid : List Node)
    (last : Node) : Except String (Store × BuiltPipe) :=
  let sb0 := pipeline s name
  (sb0.2.fromNode sb0.1 first).bind fun sb1 =>
  (throughAll sb1.1 sb1.2 mid).bind fun sb2 =>
  (sb2.2.toNode sb2.1 last).bind fun sb3 =>
  (sb3.2.build sb3.1).map fun p => (sb3.1, p)

theorem throughAll_ok (mid : List Node) :
    ∀ (s : Store) (b : PipelineBuilder),
    (∀ n ∈ mid, n.kind = NodeKind.transform ∨ n.kind = NodeKind.duplex) →
    ∃ s', throughAll s b mid = .ok (s', b) ∧
      (∀ r, s'.arrays r = if r = b.nodesRef
        then s.arrays b.nodesRef ++ mid else s.arrays r) := by
  induction mid with
  | nil =>
      intro s b _
      refine ⟨s, rfl, fun r => ?_⟩
      by_cases hr : r = b.nodesRef <;> simp [hr]
  | cons n rest ih =>
      intro s b hmid
      have hk := hmid n (List.mem_cons_self n rest)
      have hcond : ¬(n.kind ≠ NodeKind.transform ∧ n.kind ≠ NodeKind.duplex) := by
        rcases hk with hk | hk <;> simp [hk]
      obtain ⟨s', hrun, harr⟩ :=
        ih (s.push b.nodesRef n) b
          (fun m hm => hmid m (List.mem_cons_of_mem _ hm))
      refine ⟨s', ?_, fun r => ?_⟩
      · simp [throughAll, PipelineBuilder.throughNode, hcond, hrun]
      · rw [harr r]
        by_cases hr : r = b.nodesRef <;> simp [hr, Store.push]

/-- C8: build validity — for a node list with an ingress head, an egress
last node, and only transform/duplex nodes in between, the fluent chain
succeeds and the built pipe holds exactly that list under the builder's
name.  (No one-node list satisfies the kind hypotheses, since a node has
exactly one kind, so every instance decomposes as `first :: mid ++
[last]`.) -/
theorem builder_build_validity (s : Store) (name : String) (ns : List Node)
    (hne : ns ≠ [])
    (hfirst : ∀ n, ns.head? = some n → n.kind = NodeKind.ingress)
    (hlast : ∀ n, ns.getLast? = some n → n.kind = NodeKind.egress)
    (hmid : ∀ n ∈ (ns.drop 1).dropLast,
      n.kind = NodeKind.transform ∨ n.kind = NodeKind.duplex) :
    ∃ first mid last s' p,
      ns = first :: mid ++ [last] ∧
      buildVia s name first mid last = .ok (s', p) ∧
      p.name = name ∧ p.view s' = ns := by
  obtain ⟨first, rest, rfl⟩ : ∃ f r, ns = f :: r := by
    cases ns with
    | nil => exact absurd rfl hne
    | cons f r => exact ⟨f, r, rfl⟩
  have hfk : first.kind = NodeKind.ingress := hfirst first rfl
  obtain ⟨mid, last, rfl⟩ : ∃ m l, rest = m ++ [l] := by
    rcases List.eq_nil_or_concat rest with hr | ⟨m, l, hr⟩
    · subst hr
      have h1 : first.kind = NodeKind.egress := hlast first rfl
      rw [hfk] at h1
      exact absurd h1 (by simp)
    · exact ⟨m, l, by simpa [List.concat_eq_append] using hr⟩
  have hgl : (first :: (mid ++ [last])).getLast? = some last := by
    have h := List.getLast?_append_cons (first :: mid) last []
    simpa using h
  have hlk : last.kind = NodeKind.egress := hlast last hgl
  have hmid' : ∀ n ∈ mid, n.kind = NodeKind.transform ∨
      n.kind = NodeKind.duplex := by
    intro n hn
    refine hmid n ?_
    simpa [List.dropLast_append_cons] using hn
  refine ⟨first, mid, last, ?_⟩
  -- run the chain step by step on the heap
  set sb0 := pipeline s name with hsb0
  have hfresh : sb0.1.arrays sb0.2.nodesRef = [] := by
    simp [hsb0, pipeline]
  have hfrom : sb0.2.fromNode sb0.1 first =
      .ok (sb0.1.push sb0.2.nodesRef first, sb0.2) := by
    simp [PipelineBuilder.fromNode, hfk]
  have hafter : (sb0.1.push sb0.2.nodesRef first).arrays sb0.2.nodesRef =
      [first] := by
    simp [Store.push, hfresh]
  obtain ⟨s2, hthr, harr2⟩ :=
    throughAll_ok mid (sb0.1.push sb0.2.nodesRef first) sb0.2 hmid'
  have harr2' : s2.arrays sb0.2.nodesRef = first :: mid := by
    rw [harr2 sb0.2.nodesRef]
    simp [hafter]
  have hto : sb0.2.toNode s2 last = .ok (s2.push sb0.2.nodesRef last, sb0.2) := by
    simp [PipelineBuilder.toNode, hlk]
  have harr3 : (s2.push sb0.2.nodesRef last).arrays sb0.2.nodesRef =
      first :: mid ++ [last] := by
    simp [Store.push, harr2']
  have hbuild : sb0.2.build (s2.push sb0.2.nodesRef last) =
      .ok ⟨sb0.2.name, sb0.2.nodesRef⟩ := by
    unfold PipelineBuilder.build
    rw [harr3]
    have h0 : (first :: mid ++ [last]).length ≠ 0 := by simp
    have hh : (first :: mid ++ [last]).head? = some first := rfl
    simp [h0, hh, hgl, hfk, hlk]
  refine ⟨s2.push sb0.2.nodesRef last, ⟨sb0.2.name, sb0.2.nodesRef⟩, rfl, ?_, ?_, ?_⟩
  · simp only [buildVia]
    rw [hfrom]
    simp only [Except.bind]
    rw [hthr]
    simp only [Except.bind]
    rw [hto]
    simp only [Except.bind]
    rw [hbuild]
    rfl
  · simp [hsb0, pipeline]
  · simp only [BuiltPipe.view]
    exact harr3

theorem builder_build_validity_witness :
    ∃ first mid last s' p,
      [inNode, transformStep, sinkStep] = first :: mid ++ [last] ∧
      buildVia emptyStore "w" first mid last = .ok (s', p) ∧
      p.name = "w" ∧ p.view s' = [inNode, transformStep, sinkStep] :=
  builder_build_validity emptyStore "w" [inNode, transformStep, sinkStep]
    (by simp)
    (by intro n h; injection h with h; rw [← h]; rfl)
    (by intro n h; injection h with h; rw [← h]; rfl)
    (by
      intro n hn
      simp only [List.drop, List.dropLast, List.mem_cons,
        List.not_mem_nil, or_false] at hn
      rw [hn]; left; rfl)

/-- C10: `build()` checks that the first node is ingress and the last node
is egress; a node has exactly one kind, so a one-node array cannot pass
both checks, and every built pipe has at least two nodes. -/
theorem built_pipe_min_two_nodes (s : Store) (b : PipelineBuilder)
    (p : BuiltPipe) (h : b.build s = .ok p) :
    2 ≤ (p.view s).length := by
  unfold PipelineBuilder.build at h
  split at h
  · exact absurd h (by simp)
  · split at h
    · exact absurd h (by simp)
    · split at h
      · exact absurd h (by simp)
      · rename_i h0 h1 h2
        have hp : p = ⟨b.name, b.nodesRef⟩ := (Except.ok.inj h).symm
        subst hp
        simp only [BuiltPipe.view]
        rcases hns : s.arrays b.nodesRef with _ | ⟨n, rest⟩
        · rw [hns] at h0; simp at h0
        rcases rest with _ | ⟨m, rest2⟩
        · -- single node: it would have to be both ingress and egress
          rw [hns] at h1 h2
          have hki : n.kind = NodeKind.ingress := by
            by_contra hk
            exact h1 (by simp [hk])
          have hke : n.kind = NodeKind.egress := by
            by_contra hk
            exact h2 (by simp [hk])
          rw [hki] at hke
          exact absurd hke (by simp)
        · simp

/-- A heap holding one already-validated two-node array, for exercising
`build` directly. -/
def twoStore : Store := ⟨fun i => if i = 0 then [inNode, sinkStep] else [], 1⟩

theorem built_pipe_min_two_nodes_witness :
    2 ≤ ((⟨"two", 0⟩ : BuiltPipe).view twoStore).length :=
  built_pipe_min_two_nodes twoStore ⟨"two", 0⟩ ⟨"two", 0⟩ (by decide)

/-- Heap state entering C9's scenario: fresh builder named `"p"`. -/
def mutStore0 : Store := (pipeline emptyStore "p").1

/-- C9's builder object. -/
def mutBuilder : PipelineBuilder := (pipeline emptyStore "p").2

/-- Heap after `b.from(inNode)`. -/
def mutStore1 : Store := mutStore0.push mutBuilder.nodesRef inNode

/-- Heap after `b.to(sinkStep)`. -/
def mutStore2 : Store := mutStore1.push mutBuilder.nodesRef sinkStep

/-- The pipe object `b.build()` returns at that point. -/
def mutPipe : BuiltPipe := ⟨"p", mutBuilder.nodesRef⟩

/-- Heap after the post-build `b.through(transformStep)`. -/
def mutStore3 : Store := mutStore2.push mutBuilder.nodesRef transformStep

/-- C9 (code bug): the pipe returned by `build()` shares its `nodes` array
with the builder, so a later `through()` on the same builder changes the
already-built pipe's node list from `[in, sink-step]` to
`[in, sink-step, transform-step]` — contradicting the declared
`readonly`/static contract of `Pipe` and the spec's immutability claim. -/
theorem built_pipe_mutated_by_later_append :
    mutBuilder.fromNode mutStore0 inNode = .ok (mutStore1, mutBuilder) ∧
    mutBuilder.toNode mutStore1 sinkStep = .ok (mutStore2, mutBuilder) ∧
    mutBuilder.build mutStore2 = .ok mutPipe ∧
    (mutPipe.view mutStore2).map Node.name = ["in", "sink-step"] ∧
    mutBuilder.throughNode mutStore2 transformStep =
      .ok (mutStore3, mutBuilder) ∧
    (mutPipe.view mutStore3).map Node.name =
      ["in", "sink-step", "transform-step"] ∧
    (mutPipe.view mutStore3).map Node.name ≠ (mutPipe.view mutStore2).map Node.name := by
  refine ⟨rfl, rfl, by decide, by decide, rfl, by decide, by decide⟩

/-!
### Plugin dispatcher (`src/runtime/plugins/pluginManager.ts`)

`PluginManager.run` is `Effect.forever(Effect.flatMap(bus.take(), e =>
Effect.forEach(plugins, p => p.onEvent(e), {discard: true})))`: take one
event, invoke every plugin's handler on it sequentially (the default for
`Effect.forEach`) in registration order, then take the next event.  The
embedding is a small-step machine whose state is the events still on the
bus plus the event currently being dispatched with the plugins that have
not yet handled it; each handler invocation is recorded as a
`(plugin name, event)` action.  A finite event list stands for the events
the bus delivers before the loop next blocks (or is interrupted).
-/

/-- A `Plugin`: a `name` and a side-effecting, non-failing `onEvent`
handler (its effect is invisible to this model beyond the fact of the
invocation, which the dispatch machine records). -/
structure Plugin where
  name : String
  onEvent : RuntimeEvent → Unit

/-- The `PluginManager`'s registry of plugins, in registration order. -/
structure PluginManager where
  plugins : List Plugin

/-- `PluginManager.register`: appends to the registry. -/
def PluginManager.register (m : PluginManager) (p : Plugin) : PluginManager :=
  ⟨m.plugins ++ [p]⟩

/-- One run of the dispatch loop, as a step machine: if an event is mid
dispatch with plugins left, invoke the next plugin's handler (recording
the action); if its plugin list is exhausted, return to the take; if idle
and an event is queued, take it and begin dispatching to the full
registry; if idle and the queue is empty, the loop blocks (the run ends). -/
def PluginManager.run (m : PluginManager) :
    List RuntimeEvent → Option (RuntimeEvent × List Plugin) →
      List (String × RuntimeEvent)
  | queue, some (e, p :: ps) => (p.name, e) :: m.run queue (some (e, ps))
  | queue, some (_, []) => m.run queue none
  | e :: queue, none => m.run queue (some (e, m.plugins))
  | [], none => []
termination_by queue cur =>
  (queue.length, match cur with | some (_, ps) => ps.length + 1 | none => 0)

theorem pluginManager_run_dispatching (m : PluginManager)
    (queue : List RuntimeEvent) (e : RuntimeEvent) :
    ∀ ps : List Plugin,
      m.run queue (some (e, ps)) =
        ps.map (fun p => (p.name, e)) ++ m.run queue none := by
  intro ps
  induction ps with
  | nil => rw [PluginManager.run]; rfl
  | cons p ps ih => rw [PluginManager.run, ih]; rfl

/-- C6: the dispatch loop handles events strictly one at a time — the
recorded handler invocations are exactly, for each queued event in queue
order, one invocation per registered plugin in registration order; in
particular every invocation for an earlier event precedes every
invocation for a later one. -/
theorem pluginManager_sequential_dispatch (m : PluginManager)
    (events : List RuntimeEvent) :
    m.run events none =
      events.flatMap (fun e => m.plugins.map (fun p => (p.name, e))) := by
  induction events with
  | nil => rw [PluginManager.run]; rfl
  | cons e rest ih =>
      rw [PluginManager.run, pluginManager_run_dispatching, ih]
      rfl

/-!
### Orchestrator (`src/orchestrator/orchestrator.ts`)

`Orchestrator.run` offers `ClusterStarted`, then per deployment (in list
order) offers `DeploymentStarted` and forks a fiber that runs that
deployment's `PipelineExecutor` and converts its outcome into a
`DeploymentCompleted` offer (`Effect.flatMap`) or, via `Effect.catchAll`,
a `DeploymentErrored` offer; it then joins every fiber in start order and
offers `ClusterCompleted`.  The forked fibers publish to the shared queue
concurrently, so the events between `ClusterStarted` and
`ClusterCompleted` form an interleaving: `OrchMid ds running tr` says that
from a state with pending deployments `ds` and forked fibers whose
un-offered events are `running`, the remaining offers can form `tr`.
-/

/-- The event offers made by one deployment's forked fiber: the executor's
events followed by `DeploymentCompleted` on success or, through
`catchAll`, `DeploymentErrored` carrying the executor's error on failure.
The fiber's own outcome is `.ok` in both branches — `catchAll` replaces
the failure with the (infallible) error-event offer. -/
def deploymentFiber (d : Deployment) : List RuntimeEvent × Except String Unit :=
  match (PipelineExecutor.run d.pipe).result with
  | .ok _ =>
      ((PipelineExecutor.run d.pipe).events ++
        [.deploymentCompleted d.name], .ok ())
  | .error e =>
      ((PipelineExecutor.run d.pipe).events ++
        [.deploymentErrored d.name e], .ok ())

/-- The events a deployment's fiber offers. -/
def deploymentEvents (d : Deployment) : List RuntimeEvent :=
  (deploymentFiber d).1

/-- `Fiber.join` over the recorded fiber handles in start order: the first
fiber failure would propagate. -/
def joinAll : List (Except String Unit) → Except String Unit
  | [] => .ok ()
  | r :: rest => r.bind fun _ => joinAll rest

/-- `Orchestrator.run`'s outcome: the sequential join of every forked
fiber's result (the event offers around it cannot fail). -/
def Orchestrator.run (c : Cluster) : Except String Unit :=
  joinAll (c.deployments.map fun d => (deploymentFiber d).2)

/-- The possible event sequences between `ClusterStarted` and
`ClusterCompleted`: the main fiber starts pending deployments in order
(offering `DeploymentStarted` and forking the fiber), forked fibers offer
their next event at any time, and the trace ends only when no deployment
is pending and every forked fiber has offered everything (the join). -/
inductive OrchMid : List Deployment → List (List RuntimeEvent) →
    List RuntimeEvent → Prop
  | done : OrchMid [] [] []
  | start (d : Deployment) (ds : List Deployment)
      (running : List (List RuntimeEvent)) (tr : List RuntimeEvent) :
      OrchMid ds (deploymentEvents d :: running) tr →
      OrchMid (d :: ds) running (.deploymentStarted d.name :: tr)
  | emit (ds : List Deployment) (running : List (List RuntimeEvent))
      (tr : List RuntimeEvent) (i : Nat) (e : RuntimeEvent)
      (rest : List RuntimeEvent) (h : running[i]? = some (e :: rest)) :
      OrchMid ds (running.set i rest) tr →
      OrchMid ds running (e :: tr)
  | finish (ds : List Deployment) (running : List (List RuntimeEvent))
      (tr : List RuntimeEvent) (i : Nat) (h : running[i]? = some []) :
      OrchMid ds (running.eraseIdx i) tr →
      OrchMid ds running tr

/-- A full `Orchestrator.run` event stream: `ClusterStarted`, an
interleaved middle, `ClusterCompleted`. -/
def OrchTrace (c : Cluster) (tr : List RuntimeEvent) : Prop :=
  ∃ mid, OrchMid c.deployments [] mid ∧
    tr = .clusterStarted c.name :: mid ++ [.clusterCompleted c.name]

theorem sum_map_countP_set (pred : RuntimeEvent → Bool)
    (running : List (List RuntimeEvent)) :
    ∀ (i : Nat) (e : RuntimeEvent) (rest : List RuntimeEvent),
      running[i]? = some (e :: rest) →
      (running.map (fun l => l.countP pred)).sum =
        ((running.set i rest).map (fun l => l.countP pred)).sum +
          (if pred e = true then 1 else 0) := by
  induction running with
  | nil => intro i e rest h; simp at h
  | cons l ls ih =>
      intro i e rest h
      cases i with
      | zero =>
          simp only [List.getElem?_cons_zero, Option.some.injEq] at h
          subst h
          simp [List.countP_cons]
          omega
      | succ i =>
          simp only [List.getElem?_cons_succ] at h
          simp only [List.set_cons_succ, List.map_cons, List.sum_cons]
          rw [ih i e rest h]
          omega

theorem sum_map_countP_erase (pred : RuntimeEvent → Bool)
    (running : List (List RuntimeEvent)) :
    ∀ (i : Nat), running[i]? = some ([] : List RuntimeEvent) →
      ((running.eraseIdx i).map (fun l => l.countP pred)).sum =
        (running.map (fun l => l.countP pred)).sum := by
  induction running with
  | nil => intro i h; simp at h
  | cons l ls ih =>
      intro i h
      cases i with
      | zero =>
          simp only [List.getElem?_cons_zero, Option.some.injEq] at h
          subst h
          simp [List.eraseIdx]
      | succ i =>
          simp only [List.getElem?_cons_succ] at h
          simp only [List.eraseIdx, List.map_cons, List.sum_cons]
          rw [ih i h]

theorem orchMid_countP (pred : RuntimeEvent → Bool)
    {ds : List Deployment} {running : List (List RuntimeEvent)}
    {tr : List RuntimeEvent} (h : OrchMid ds running tr) :
    tr.countP pred =
      (ds.map fun d =>
        ((RuntimeEvent.deploymentStarted d.name ::
          deploymentEvents d).countP pred)).sum +
      (running.map (fun l => l.countP pred)).sum := by
  induction h with
  | done => simp
  | start d ds running tr hm ih =>
      simp only [List.map_cons, List.sum_cons, List.countP_cons] at *
      omega
  | emit ds running tr i e rest hget hm ih =>
      have hs := sum_map_countP_set pred running i e rest hget
      simp only [List.countP_cons] at *
      omega
  | finish ds running tr i hget hm ih =>
      have hs := sum_map_countP_erase pred running i hget
      omega

/-- Predicate: the event is a `ClusterStarted` (any name). -/
def isClusterStartedEv : RuntimeEvent → Bool
  | .clusterStarted _ => true
  | _ => false

/-- Predicate: the event is a `ClusterCompleted` (any name). -/
def isClusterCompletedEv : RuntimeEvent → Bool
  | .clusterCompleted _ => true
  | _ => false

/-- Predicate: the event is `DeploymentCompleted{name}`. -/
def isDeploymentCompletedNamed (name : String) : RuntimeEvent → Bool
  | .deploymentCompleted n => decide (n = name)
  | _ => false

/-- Predicate: the event is `DeploymentErrored{name, _}`. -/
def isDeploymentErroredNamed (name : String) : RuntimeEvent → Bool
  | .deploymentErrored n _ => decide (n = name)
  | _ => false

theorem runNodes_countP_zero (pred : RuntimeEvent → Bool)
    (hns : ∀ n, pred (.nodeStarted n) = false)
    (hnc : ∀ n, pred (.nodeCompleted n) = false)
    (hne : ∀ n e, pred (.nodeErrored n e) = false) :
    ∀ (nodes : List Node) (cur : Val),
      ((runNodes nodes cur).events).countP pred = 0 := by
  intro nodes
  induction nodes with
  | nil => intro cur; simp [runNodes]
  | cons node rest ih =>
      intro cur
      unfold runNodes
      rcases hr : node.run cur with e | w
      · simp [List.countP_cons, hns, hne]
      · simp [List.countP_cons, hns, hnc, ih w]

theorem executor_countP_zero (pred : RuntimeEvent → Bool)
    (hns : ∀ n, pred (.nodeStarted n) = false)
    (hnc : ∀ n, pred (.nodeCompleted n) = false)
    (hne : ∀ n e, pred (.nodeErrored n e) = false)
    (hps : ∀ n, pred (.pipelineStarted n) = false)
    (hpc : ∀ n, pred (.pipelineCompleted n) = false)
    (pipe : Pipe) :
    ((PipelineExecutor.run pipe).events).countP pred = 0 := by
  have hz := runNodes_countP_zero pred hns hnc hne pipe.nodes Val.undef
  have hz' : ∀ a ∈ (runNodes pipe.nodes Val.undef).events, ¬pred a = true :=
    List.countP_eq_zero.mp hz
  unfold PipelineExecutor.run
  rcases hr : (runNodes pipe.nodes Val.undef).result with e | w
  · simp only [hr]
    refine List.countP_eq_zero.mpr fun a ha => ?_
    simp only [List.mem_cons] at ha
    rcases ha with rfl | ha
    · simp [hps]
    · exact hz' a ha
  · simp only [hr]
    refine List.countP_eq_zero.mpr fun a ha => ?_
    have hms : a = RuntimeEvent.pipelineStarted pipe.name ∨
        a ∈ (runNodes pipe.nodes Val.undef).events ∨
        a = RuntimeEvent.pipelineCompleted pipe.name := by
      simpa [List.mem_cons, List.mem_append] using ha
    rcases hms with rfl | hms | rfl
    · simp [hps]
    · exact hz' a hms
    · simp [hpc]

theorem deploymentEvents_countP (pred : RuntimeEvent → Bool)
    (hns : ∀ n, pred (.nodeStarted n) = false)
    (hnc : ∀ n, pred (.nodeCompleted n) = false)
    (hne : ∀ n e, pred (.nodeErrored n e) = false)
    (hps : ∀ n, pred (.pipelineStarted n) = false)
    (hpc : ∀ n, pred (.pipelineCompleted n) = false)
    (d : Deployment) :
    (deploymentEvents d).countP pred =
      (match (PipelineExecutor.run d.pipe).result with
       | .ok _ => if pred (.deploymentCompleted d.name) = true then 1 else 0
       | .error e =>
          if pred (.deploymentErrored d.name e) = true then 1 else 0) := by
  have hz := executor_countP_zero pred hns hnc hne hps hpc d.pipe
  unfold deploymentEvents deploymentFiber
  rcases hr : (PipelineExecutor.run d.pipe).result with e | w
  · simp [List.countP_append, List.countP_cons, hz]
  · simp [List.countP_append, List.countP_cons, hz]

theorem sum_map_name_single (f : Deployment → Nat) :
    ∀ (ds : List Deployment) (d0 : Deployment), d0 ∈ ds →
      (ds.map Deployment.name).Nodup →
      (∀ d ∈ ds, d.name ≠ d0.name → f d = 0) →
      (ds.map f).sum = f d0 := by
  intro ds
  induction ds with
  | nil => intro d0 hd; simp at hd
  | cons d ds ih =>
      intro d0 hd hnodup hz
      obtain ⟨hnotin, hnodup'⟩ := List.nodup_cons.mp hnodup
      simp only [List.map_cons, List.sum_cons]
      rcases List.mem_cons.mp hd with rfl | hd'
      · have htail : ∀ d' ∈ ds, f d' = 0 := by
          intro d' hd'
          refine hz d' (List.mem_cons_of_mem _ hd') fun hcontra => ?_
          exact hnotin (hcontra ▸ List.mem_map_of_mem Deployment.name hd')
        have hsum : (ds.map f).sum = 0 := by
          refine List.sum_eq_zero fun x hx => ?_
          obtain ⟨d', hd', rfl⟩ := List.mem_map.mp hx
          exact htail d' hd'
        rw [hsum]
        omega
      · have hh : d.name ≠ d0.name := fun hcontra =>
          hnotin (hcontra ▸ List.mem_map_of_mem Deployment.name hd')
        rw [hz d (List.mem_cons_self _ _) hh,
          ih d0 hd' hnodup'
            (fun d' h' hne => hz d' (List.mem_cons_of_mem _ h') hne)]
        omega

theorem deploymentFiber_ok (d : Deployment) :
    (deploymentFiber d).2 = .ok () := by
  unfold deploymentFiber
  rcases hr : (PipelineExecutor.run d.pipe).result with e | w <;> simp [hr]

theorem joinAll_fibers_ok (ds : List Deployment) :
    joinAll (ds.map fun d => (deploymentFiber d).2) = .ok () := by
  induction ds with
  | nil => rfl
  | cons d ds ih => simp [joinAll, deploymentFiber_ok d, Except.bind, ih]

theorem startBlock_countP_DC (d : Deployment) (n : String) :
    ((RuntimeEvent.deploymentStarted d.name :: deploymentEvents d).countP
      (isDeploymentCompletedNamed n)) =
      (match (PipelineExecutor.run d.pipe).result with
       | .ok _ => if d.name = n then 1 else 0
       | .error _ => 0) := by
  rw [List.countP_cons,
    deploymentEvents_countP (isDeploymentCompletedNamed n)
      (fun _ => rfl) (fun _ => rfl) (fun _ _ => rfl) (fun _ => rfl)
      (fun _ => rfl) d]
  rcases hres : (PipelineExecutor.run d.pipe).result with e | w <;>
    simp [hres, isDeploymentCompletedNamed]

theorem startBlock_countP_DE (d : Deployment) (n : String) :
    ((RuntimeEvent.deploymentStarted d.name :: deploymentEvents d).countP
      (isDeploymentErroredNamed n)) =
      (match (PipelineExecutor.run d.pipe).result with
       | .ok _ => 0
       | .error _ => if d.name = n then 1 else 0) := by
  rw [List.countP_cons,
    deploymentEvents_countP (isDeploymentErroredNamed n)
      (fun _ => rfl) (fun _ => rfl) (fun _ _ => rfl) (fun _ => rfl)
      (fun _ => rfl) d]
  rcases hres : (PipelineExecutor.run d.pipe).result with e | w <;>
    simp [hres, isDeploymentErroredNamed]

theorem startBlock_countP_CS (d : Deployment) :
    ((RuntimeEvent.deploymentStarted d.name :: deploymentEvents d).countP
      isClusterStartedEv) = 0 := by
  rw [List.countP_cons,
    deploymentEvents_countP isClusterStartedEv
      (fun _ => rfl) (fun _ => rfl) (fun _ _ => rfl) (fun _ => rfl)
      (fun _ => rfl) d]
  rcases hres : (PipelineExecutor.run d.pipe).result with e | w <;>
    simp [hres, isClusterStartedEv]

theorem startBlock_countP_CC (d : Deployment) :
    ((RuntimeEvent.deploymentStarted d.name :: deploymentEvents d).countP
      isClusterCompletedEv) = 0 := by
  rw [List.countP_cons,
    deploymentEvents_countP isClusterCompletedEv
      (fun _ => rfl) (fun _ => rfl) (fun _ _ => rfl) (fun _ => rfl)
      (fun _ => rfl) d]
  rcases hres : (PipelineExecutor.run d.pipe).result with e | w <;>
    simp [hres, isClusterCompletedEv]

/-- C2: orchestrator isolation — in every possible event stream of
`Orchestrator.run` over a cluster with distinct deployment names, each
deployment whose pipeline fails contributes exactly one
`DeploymentErrored` (and no `DeploymentCompleted`), each that succeeds
exactly one `DeploymentCompleted` (and no `DeploymentErrored`),
independently of its siblings; exactly one `ClusterStarted` and one
`ClusterCompleted` appear, and `run` itself always returns success. -/
theorem orchestrator_isolation (c : Cluster) (tr : List RuntimeEvent)
    (htr : OrchTrace c tr)
    (hnodup : (c.deployments.map Deployment.name).Nodup) :
    Orchestrator.run c = .ok () ∧
    tr.countP isClusterStartedEv = 1 ∧
    tr.countP isClusterCompletedEv = 1 ∧
    ∀ d ∈ c.deployments,
      ((PipelineExecutor.run d.pipe).result.isOk = true →
        tr.countP (isDeploymentCompletedNamed d.name) = 1 ∧
        tr.countP (isDeploymentErroredNamed d.name) = 0) ∧
      ((PipelineExecutor.run d.pipe).result.isOk = false →
        tr.countP (isDeploymentErroredNamed d.name) = 1 ∧
        tr.countP (isDeploymentCompletedNamed d.name) = 0) := by
  obtain ⟨mid, hmid, rfl⟩ := htr
  have hms : ∀ p : RuntimeEvent → Bool,
      ((RuntimeEvent.clusterStarted c.name ::
          mid ++ [RuntimeEvent.clusterCompleted c.name]).countP p) =
        (if p (.clusterStarted c.name) = true then 1 else 0) +
          mid.countP p +
          (if p (.clusterCompleted c.name) = true then 1 else 0) := by
    intro p
    simp only [List.countP_cons, List.countP_append, List.countP_nil]
    omega
  have hmid0 : ∀ p : RuntimeEvent → Bool,
      mid.countP p =
        (c.deployments.map fun d =>
          ((RuntimeEvent.deploymentStarted d.name ::
            deploymentEvents d).countP p)).sum := by
    intro p
    have h := orchMid_countP p hmid
    simpa using h
  refine ⟨joinAll_fibers_ok c.deployments, ?_, ?_, ?_⟩
  · rw [hms, hmid0]
    have h0 : (c.deployments.map fun d =>
        ((RuntimeEvent.deploymentStarted d.name ::
          deploymentEvents d).countP isClusterStartedEv)).sum = 0 := by
      refine List.sum_eq_zero fun x hx => ?_
      obtain ⟨d, hd, rfl⟩ := List.mem_map.mp hx
      exact startBlock_countP_CS d
    rw [h0]
    rfl
  · rw [hms, hmid0]
    have h0 : (c.deployments.map fun d =>
        ((RuntimeEvent.deploymentStarted d.name ::
          deploymentEvents d).countP isClusterCompletedEv)).sum = 0 := by
      refine List.sum_eq_zero fun x hx => ?_
      obtain ⟨d, hd, rfl⟩ := List.mem_map.mp hx
      exact startBlock_countP_CC d
    rw [h0]
    rfl
  · intro d0 hd0
    have hdc : mid.countP (isDeploymentCompletedNamed d0.name) =
        (match (PipelineExecutor.run d0.pipe).result with
         | .ok _ => 1
         | .error _ => 0) := by
      rw [hmid0]
      rw [sum_map_name_single _ c.deployments d0 hd0 hnodup
        (fun d hd hne => by
          rw [startBlock_countP_DC d d0.name]
          rcases (PipelineExecutor.run d.pipe).result with e | w <;>
            simp [hne])]
      rw [startBlock_countP_DC d0 d0.name]
      rcases (PipelineExecutor.run d0.pipe).result with e | w <;> simp
    have hde : mid.countP (isDeploymentErroredNamed d0.name) =
        (match (PipelineExecutor.run d0.pipe).result with
         | .ok _ => 0
         | .error _ => 1) := by
      rw [hmid0]
      rw [sum_map_name_single _ c.deployments d0 hd0 hnodup
        (fun d hd hne => by
          rw [startBlock_countP_DE d d0.name]
          rcases (PipelineExecutor.run d.pipe).result with e | w <;>
            simp [hne])]
      rw [startBlock_countP_DE d0 d0.name]
      rcases (PipelineExecutor.run d0.pipe).result with e | w <;> simp
    rcases hres : (PipelineExecutor.run d0.pipe).result with e | w
    · constructor
      · intro hok
        simp [Except.isOk, Except.toBool] at hok
      · intro hok
        constructor
        · rw [hms, hde, hres]
          rfl
        · rw [hms, hdc, hres]
          rfl
    · constructor
      · intro hok
        constructor
        · rw [hms, hdc, hres]
          rfl
        · rw [hms, hde, hres]
          rfl
      · intro hok
        simp [Except.isOk, Except.toBool] at hok

theorem orchMid_flush (ds : List Deployment) (l : List RuntimeEvent)
    (running : List (List RuntimeEvent)) (tr : List RuntimeEvent)
    (h : OrchMid ds running tr) : OrchMid ds (l :: running) (l ++ tr) := by
  induction l with
  | nil => exact OrchMid.finish ds ([] :: running) tr 0 (by simp) h
  | cons e l ih =>
      exact OrchMid.emit ds ((e :: l) :: running) (l ++ tr) 0 e l (by simp) ih

theorem orchMid_seq (ds : List Deployment) :
    OrchMid ds [] (ds.flatMap fun d =>
      RuntimeEvent.deploymentStarted d.name :: deploymentEvents d) := by
  induction ds with
  | nil => exact OrchMid.done
  | cons d ds ih =>
      have h1 : OrchMid ds [deploymentEvents d]
          (deploymentEvents d ++ ds.flatMap fun d' =>
            RuntimeEvent.deploymentStarted d'.name :: deploymentEvents d') :=
        orchMid_flush ds (deploymentEvents d) [] _ ih
      have h2 := OrchMid.start d ds [] _ h1
      simpa using h2

/-- The always-succeeding deployment of the isolation scenario. -/
def depA : Deployment := ⟨"A", helloPipe⟩

/-- The always-failing deployment of the isolation scenario. -/
def depB : Deployment := ⟨"B", boomPipe⟩

/-- The isolation scenario's cluster. -/
def clusterW : Cluster := ⟨"c", [depA, depB]⟩

/-- One possible event stream of the isolation scenario (the sequential
schedule). -/
def clusterWTrace : List RuntimeEvent :=
  .clusterStarted "c" ::
    ([depA, depB].flatMap fun d =>
      RuntimeEvent.deploymentStarted d.name :: deploymentEvents d) ++
    [.clusterCompleted "c"]

theorem orchestrator_isolation_witness :
    Orchestrator.run clusterW = .ok () ∧
    clusterWTrace.countP isClusterStartedEv = 1 ∧
    clusterWTrace.countP isClusterCompletedEv = 1 ∧
    ∀ d ∈ clusterW.deployments,
      ((PipelineExecutor.run d.pipe).result.isOk = true →
        clusterWTrace.countP (isDeploymentCompletedNamed d.name) = 1 ∧
        clusterWTrace.countP (isDeploymentErroredNamed d.name) = 0) ∧
      ((PipelineExecutor.run d.pipe).result.isOk = false →
        clusterWTrace.countP (isDeploymentErroredNamed d.name) = 1 ∧
        clusterWTrace.countP (isDeploymentCompletedNamed d.name) = 0) :=
  orchestrator_isolation clusterW clusterWTrace
    ⟨_, orchMid_seq [depA, depB], rfl⟩ (by decide)

end EffectPipeline
